import Mathlib

/-!
Shallow embedding of `src/lib/iterator.js` (lazy pull-based iterator library).

The JS pull protocol is `next() : {done : Bool, value}` on a mutable cursor.
We model a cursor as an explicit state type `σ` together with a step function
`σ → Option V × σ`: `none` renders `{done: true}` (the `value` field of a
done result is `undefined` and carries no information), `some v` renders
`{done: false, value: v}`; the returned state is the mutated cursor.

Terminal operations (`includes`, `reduce`, `someCount`) iterate their cursor
with `for (const value of this)`; over a conforming cursor this consumes the
produced values in order, so they are embedded as functions on the list of
produced values.
-/

namespace Metautil

/-- A pull-protocol step function: JS `next()` with explicit state passing. -/
abbrev Step (σ V : Type) := σ → Option V × σ

/-- The cursor of a plain finite sequence (a JS array iterator over a list):
yields the elements in order, then reports `done` forever. -/
def stepList {V : Type} : Step (List V) V := fun l =>
  match l with
  | [] => (none, [])
  | x :: xs => (some x, xs)

/-- Drive a cursor with the given amount of fuel, collecting the produced
values in order and stopping at the first `done` result. -/
def collectN {σ V : Type} (step : Step σ V) : Nat → σ → List V
  | 0, _ => []
  | fuel + 1, s =>
    match step s with
    | (none, _) => []
    | (some v, s') => v :: collectN step fuel s'

/-- The state reached after calling `next()` a given number of times. -/
def iterState {σ V : Type} (step : Step σ V) : σ → Nat → σ
  | s, 0 => s
  | s, n + 1 => iterState step (step s).2 n

/-- Exhaustion is permanent for this cursor: whenever a call reports `done`,
every later call (after any number of further `next()` calls) also reports
`done`. -/
def Permanent {σ V : Type} (step : Step σ V) : Prop :=
  ∀ s, (step s).1 = none → ∀ n, (step (iterState step (step s).2 n)).1 = none

/-- `MapIterator.next` (iterator.js:158-164): pull upstream once; a done
result is propagated (its value is `undefined`), otherwise the mapper is
applied to the pulled value. The upstream is pulled on every call; there is
no sticky exhaustion flag. -/
def mapNext {σ V W : Type} (f : V → W) (step : Step σ V) : Step σ W := fun s =>
  match step s with
  | (none, s') => (none, s')
  | (some v, s') => (some (f v), s')

/-- `TakeWhileIterator.next` (iterator.js:274-282): a sticky `done` flag;
once set, `next()` returns done without touching the upstream. The first
upstream exhaustion, or the first value failing the predicate, sets the flag
(that value is discarded). -/
def takeWhileNext {σ V : Type} (p : V → Bool) (step : Step σ V) :
    Step (Bool × σ) V := fun st =>
  match st with
  | (true, s) => (none, (true, s))
  | (false, s) =>
    match step s with
    | (none, s') => (none, (true, s'))
    | (some v, s') =>
      if p v then (some v, (false, s')) else (none, (true, s'))

/-- `TakeIterator.next` (iterator.js:257-263): increment the `iterated`
counter on every call; while the counter is within the target amount,
delegate to the upstream (returning its result unchanged); afterwards report
done without touching the upstream. -/
def takeNext {σ V : Type} (amount : Nat) (step : Step σ V) :
    Step (Nat × σ) V := fun st =>
  match st with
  | (it, s) =>
    if it + 1 ≤ amount then
      match step s with
      | (o, s') => (o, (it + 1, s'))
    else (none, (it + 1, s))

/-- An upstream cursor that violates exhaustion permanence: its first call
reports done, and every later call produces the value 7. Used to probe
whether adaptors enforce permanence themselves. -/
def badStep : Step Nat Nat := fun s =>
  if s = 0 then (none, 1) else (some 7, s + 1)

/-- A dynamic value as seen by `FlatIterator`/`FlatMapIterator`:
`nullish` is `undefined` or `null` — non-enumerable, and any property
access `value[Symbol.iterator]` on it throws a TypeError; `leaf` is any
other non-enumerable value (the probe yields `undefined`, which is falsy);
`arr` is an enumerable array of nested values. -/
inductive Val (β : Type) where
  | nullish : Val β
  | leaf : β → Val β
  | arr : List (Val β) → Val β

/-- Message modeling the TypeError thrown by the property access
`value[Symbol.iterator]` when `value` is `undefined` or `null` (the exact
wording is engine-specific). -/
def errNullishProbe : String := "Cannot read Symbol.iterator of undefined or null"

mutual

/-- Structural size of a dynamic value (used as a termination measure). -/
def sizeVal {β : Type} : Val β → Nat
  | .nullish => 1
  | .leaf _ => 1
  | .arr l => 1 + sizeLst l

/-- Structural size of a list of dynamic values. -/
def sizeLst {β : Type} : List (Val β) → Nat
  | [] => 0
  | v :: r => sizeVal v + sizeLst r

end

/-- Total size of the values remaining in a stack of list cursors. -/
def stackSize {β : Type} : List (List (Val β)) → Nat
  | [] => 0
  | l :: rest => sizeLst l + stackSize rest

/-- Combined termination measure for `FlatIterator.next`'s inner loop. -/
def flatMeasure {β : Type} (st : List (List (Val β))) : Nat :=
  2 * stackSize st + st.length

/-- `FlatIterator.next` (iterator.js:192-214), specialized to list cursors.
The JS object keeps `stack` (an array of cursors, the original upstream at
index 0) and `currentDepth` (index of the deepest active cursor, `-1` once
overall exhaustion is reached).  We represent the live portion of the stack
deepest-first: the head of the state is the cursor at `currentDepth`, the
last element is the upstream; the empty state is `currentDepth = -1`.  For a
state `top :: rest`, `currentDepth = rest.length` and the JS guard
`currentDepth === this.stack.length - 1` (the allocated array has length
`depth + 1`) reads `rest.length = d`.  The loop: pull the deepest cursor; on
done, pop it and continue at the parent (overall done when none remains); a
pulled value is returned as-is at the depth limit (the `||` short-circuits,
so the value is not probed there); below the limit the guard evaluates
`next.value[Symbol.iterator]`, which throws a TypeError when the value is
nullish, returns the value as-is when the probe is falsy (non-enumerable),
and otherwise pushes a cursor over the value's elements and continues. -/
def flatNext {β : Type} (d : Nat) :
    List (List (Val β)) → Except String (Option (Val β) × List (List (Val β)))
  | [] => .ok (none, [])
  | [] :: rest => flatNext d rest
  | (v :: vs) :: rest =>
    if rest.length = d then .ok (some v, vs :: rest)
    else
      match v with
      | .nullish => .error errNullishProbe
      | .leaf x => .ok (some (Val.leaf x), vs :: rest)
      | .arr m => flatNext d (m :: vs :: rest)
termination_by st => flatMeasure st
decreasing_by
  all_goals (simp [flatMeasure, stackSize, sizeLst, sizeVal] <;> omega)

/-- Drive an error-capable cursor with the given amount of fuel, collecting
the produced values in order; the run stops at the first done result and a
thrown error aborts the whole run (as an uncaught JS exception would). -/
def collectE {σ V : Type} (step : σ → Except String (Option V × σ)) :
    Nat → σ → Except String (List V)
  | 0, _ => .ok []
  | fuel + 1, s =>
    match step s with
    | .error e => .error e
    | .ok (none, _) => .ok []
    | .ok (some v, s') =>
      match collectE step fuel s' with
      | .error e => .error e
      | .ok t => .ok (v :: t)

/-- Depth-bounded flattening of a list of nested values, written by direct
recursion on the depth budget: with no budget the list is returned as-is
(nullish values included, since the depth-limit check short-circuits the
probe); with positive budget a nullish value raises the probe TypeError,
each leaf passes through, and each nested array is flattened with one unit
less budget. -/
def flattenList {β : Type} : Nat → List (Val β) → Except String (List (Val β))
  | 0, l => .ok l
  | _ + 1, [] => .ok []
  | _ + 1, .nullish :: _ => .error errNullishProbe
  | d + 1, .leaf x :: rest =>
    match flattenList (d + 1) rest with
    | .error e => .error e
    | .ok t => .ok (Val.leaf x :: t)
  | d + 1, .arr m :: rest =>
    match flattenList d m with
    | .error e => .error e
    | .ok a =>
      match flattenList (d + 1) rest with
      | .error e => .error e
      | .ok t => .ok (a ++ t)
termination_by d l => (d, l.length)

/-- Flattening by exactly one level: a nullish value at the top level
raises the probe TypeError, leaves pass through, and a directly nested
array contributes its elements unchanged (deeper nesting, and nullish
values inside it, left intact). -/
def oneLevel {β : Type} : List (Val β) → Except String (List (Val β))
  | [] => .ok []
  | .nullish :: _ => .error errNullishProbe
  | .leaf x :: rest =>
    match oneLevel rest with
    | .error e => .error e
    | .ok t => .ok (Val.leaf x :: t)
  | .arr m :: rest =>
    match oneLevel rest with
    | .error e => .error e
    | .ok t => .ok (m ++ t)

/-- Expected remaining output of a `FlatIterator` in a given stack state:
the cursor at `currentDepth = k` still has budget `d - k`, and errors
surface in pull order (deepest cursor first). -/
def stackFlatten {β : Type} (d : Nat) :
    List (List (Val β)) → Except String (List (Val β))
  | [] => .ok []
  | top :: rest =>
    match flattenList (d - rest.length) top with
    | .error e => .error e
    | .ok a =>
      match stackFlatten d rest with
      | .error e => .error e
      | .ok t => .ok (a ++ t)

/-- `FlatMapIterator.next` (iterator.js:225-247), specialized to a list
upstream, instrumented with the number of nested `next()` invocations the
call performs (the JS body executes `return this.next();` — a recursive
self-call — whenever the current sub-iterator reports done).  State: the
remaining upstream values and `currentIterator` (`none` renders the JS
`null`).  With no active sub-iterator, pull upstream (done propagates), map
the value; a non-enumerable mapped value is returned directly, an enumerable
one is adopted as the sub-iterator and pulled; a sub-iterator value is
returned, and an exhausted sub-iterator is dropped followed by the recursive
self-call.  The enumerability probe `!value[Symbol.iterator]`
(iterator.js:233) throws a TypeError when the mapped value is nullish,
modeled as an error outcome.  The result is `((outcome, state), depth)`
where the outcome is the thrown error, a done signal, or a produced value,
and `depth` counts the `next()` invocations consumed by this one
downstream pull. -/
def flatMapNextD {α β : Type} (f : α → Val β) :
    List α × Option (List (Val β)) →
      (Except String (Option (Val β)) × (List α × Option (List (Val β)))) × Nat
  | (base, some (v :: vs)) => ((.ok (some v), (base, some vs)), 1)
  | (base, some []) =>
    let r := flatMapNextD f (base, none)
    (r.1, r.2 + 1)
  | ([], none) => ((.ok none, ([], none)), 1)
  | (x :: rest, none) =>
    match f x with
    | .nullish => ((.error errNullishProbe, (rest, none)), 1)
    | .leaf b => ((.ok (some (Val.leaf b)), (rest, none)), 1)
    | .arr [] =>
      let r := flatMapNextD f (rest, none)
      (r.1, r.2 + 1)
    | .arr (v :: vs) => ((.ok (some v), (rest, some vs)), 1)
termination_by st => st.1.length * 2 + (if st.2.isSome then 1 else 0)
decreasing_by
  all_goals (simp <;> omega)

/-- An upstream for `flatMap` with the identity mapper: `k` consecutive
empty sub-sequences followed by one non-enumerable value. -/
def flatMapEmptyRun (k : Nat) : List (Val Nat) :=
  List.replicate k (Val.arr []) ++ [Val.leaf 0]

/-- Number of nested `next()` invocations a single downstream pull performs
on a fresh `flatMap` cursor over `flatMapEmptyRun k` with the identity
mapper. -/
def flatMapDepth (k : Nat) : Nat :=
  (flatMapNextD (fun v => v) (flatMapEmptyRun k, none)).2

/-- Claim C5 as stated: the call-stack usage of one downstream pull is
bounded by a constant, regardless of how many consecutive empty mapped
sub-sequences the upstream produces. -/
def flatMapConstantStack : Prop :=
  ∃ c, ∀ k, flatMapDepth k ≤ c

/-- A dynamic JS value as compared by `includes` and tested by `reduce`:
an integer number, the NaN sentinel, or `undefined`.  (Enough of the JS
value universe to express strict equality and the coercing global
`isNaN`.) -/
inductive JSV where
  | num : Int → JSV
  | nan : JSV
  | undef : JSV
deriving DecidableEq

/-- JS strict equality `===` on the modelled values: numbers compare by
value, `undefined === undefined`, and `NaN === NaN` is false. -/
def jsEq : JSV → JSV → Bool
  | .num a, .num b => a == b
  | .undef, .undef => true
  | _, _ => false

/-- The coercing global `isNaN`: `Number(x)` is computed first, so it is
true not only for the NaN sentinel but also for `undefined` (and any other
value that coerces to NaN); it is false for every (integer) number. -/
def jsIsNaN : JSV → Bool
  | .num _ => false
  | .nan => true
  | .undef => true

/-- `Iterator.includes` (iterator.js:52-59): linear scan returning true at
the first value with `value === element || (isNaN(value) && isNaN(element))`,
false when the scan exhausts the sequence. -/
def includes (element : JSV) : List JSV → Bool
  | [] => false
  | v :: rest =>
    if jsEq v element || (jsIsNaN v && jsIsNaN element) then true
    else includes element rest

/-- Message of the reduce-without-seed TypeError (iterator.js:67-69). -/
def errReduce : String := "Reduce of consumed iterator with no initial value"

/-- `Iterator.reduce` (iterator.js:61-78): the accumulator starts as the
supplied initial value; if that is `undefined` (which is also what JS passes
when the argument is omitted) the seed is pulled from the sequence, and an
already-exhausted sequence raises the reduce-without-seed TypeError; then
the remaining values are folded left with the reducer. -/
def reduce (reducer : JSV → JSV → JSV) (initialValue : JSV) (l : List JSV) :
    Except String JSV :=
  if initialValue = JSV.undef then
    match l with
    | [] => .error errReduce
    | x :: rest => .ok (rest.foldl reducer x)
  else
    .ok (l.foldl reducer initialValue)

/-- The behaviour of `reduce` invoked with the `initialValue` argument
omitted: seed from the first produced value, error when the sequence is
already exhausted. -/
def reduceNoSeed (reducer : JSV → JSV → JSV) (l : List JSV) :
    Except String JSV :=
  match l with
  | [] => .error errReduce
  | x :: rest => .ok (rest.foldl reducer x)

/-- Loop body of `Iterator.someCount` (iterator.js:89-97) with the match
counter made explicit: scan the remaining values, increment the counter on
each predicate match, return true the moment the incremented counter equals
the requested count (leaving the rest of the sequence unconsumed), false
when the sequence exhausts.  The returned list is what remains unconsumed. -/
def someCountGo {V : Type} (p : V → Bool) (count : Nat) :
    Nat → List V → Bool × List V
  | _, [] => (false, [])
  | n, x :: r =>
    if p x then
      if n + 1 = count then (true, r) else someCountGo p count (n + 1) r
    else someCountGo p count n r

/-- `Iterator.someCount` run on a fresh cursor (local counter starts at 0). -/
def someCount {V : Type} (p : V → Bool) (count : Nat) (l : List V) :
    Bool × List V :=
  someCountGo p count 0 l

/-- A source value handed to `join(...)`: either an enumerable sequence or a
value lacking the enumeration capability. -/
inductive Source (V : Type) where
  | ofList : List V → Source V
  | notIterable : Source V

/-- Message of the TypeError raised by `toIterator` (iterator.js:7). -/
def errNotIterable : String := "Base is not Iterable"

/-- `toIterator` (iterator.js:5-10): obtain a cursor from a source, raising
the not-iterable TypeError when the source lacks `Symbol.iterator`. -/
def toIterator {V : Type} : Source V → Except String (List V)
  | .ofList l => .ok l
  | .notIterable => .error errNotIterable

/-- The constructor expression `iterators.map(toIterator)` of `JoinIterator`
(iterator.js:315): converts every queued source to a cursor, left to right,
propagating the first TypeError. -/
def mapToIterators {V : Type} : List (Source V) → Except String (List (List V))
  | [] => .ok []
  | s :: rest =>
    match toIterator s with
    | .error e => .error e
    | .ok l =>
      match mapToIterators rest with
      | .error e => .error e
      | .ok ls => .ok (l :: ls)

/-- The `JoinIterator` constructor (iterator.js:312-316): the current cursor
starts as the primary upstream, and all queued sources are converted to
cursors at construction time (the conversion of every queued source happens
here, before any `next()` call). -/
def joinInit {V : Type} (base : List V) (sources : List (Source V)) :
    Except String (List V × List (List V)) :=
  match mapToIterators sources with
  | .error e => .error e
  | .ok its => .ok (base, its)

/-- `JoinIterator.next` (iterator.js:318-329), specialized to list cursors.
State: the current cursor and the queue of remaining cursors.  Pull the
current cursor; a value is returned; on done, advance to the next queued
cursor and retry (`return this.next()`), reporting overall done when the
queue is exhausted. -/
def joinNext {V : Type} : List V × List (List V) → Option V × (List V × List (List V))
  | (x :: rest, q) => (some x, (rest, q))
  | ([], []) => (none, ([], []))
  | ([], c :: q) => joinNext (c, q)
termination_by st => st.2.length

/-- Fuel sufficient to drain a `join` cursor from the given state. -/
def joinBound {V : Type} (b : List V) (q : List (List V)) : Nat :=
  b.length + (q.map List.length).sum + q.length + 1

/-- The secondary-cursor loop of `ZipIterator.next` (iterator.js:300-306):
pull one value from each cursor in declared order; at the first cursor that
reports done, stop immediately — the cursors after it are left untouched —
and report done; otherwise collect the values in order.  Returns the
collected values (or none) together with the updated cursor states. -/
def zipPull {V : Type} : List (List V) → Option (List V) × List (List V)
  | [] => (some [], [])
  | [] :: rest => (none, [] :: rest)
  | (v :: vs) :: rest =>
    match zipPull rest with
    | (none, rest') => (none, vs :: rest')
    | (some ws, rest') => (some (v :: ws), vs :: rest')

/-- `ZipIterator.next` (iterator.js:291-308), specialized to list cursors:
pull the primary cursor first (done propagates immediately, with the
secondaries untouched), then the secondaries in declared order via
`zipPull`; on success produce the array of per-cursor values, primary
first. -/
def zipNext {V : Type} : Step (List V × List (List V)) (List V) := fun st =>
  match st with
  | ([], secs) => (none, ([], secs))
  | (x :: bs, secs) =>
    match zipPull secs with
    | (none, secs') => (none, (bs, secs'))
    | (some ws, secs') => (some (x :: ws), (bs, secs'))

/-- Minimum length among the primary and all secondary sequences. -/
def minLen {V : Type} (b : List V) (secs : List (List V)) : Nat :=
  (secs.map List.length).foldr Nat.min b.length

/-- Index-based specification of zip output: one tuple per index below the
minimum input length, the tuple at index `k` holding the `k`-th element of
every input in declared order, primary first. -/
def zipSpec {V : Type} (b : List V) (secs : List (List V)) : List (List V) :=
  (List.range (minLen b secs)).map (fun k => (b :: secs).filterMap (fun l => l[k]?))

/-- Construction of `join` as the claim describes it: queued sources are not
converted at construction time, so the state keeps the unconverted sources
and construction always succeeds. -/
def joinInitLazySpec {V : Type} (base : List V) (sources : List (Source V)) :
    Except String (List V × List (Source V)) :=
  .ok (base, sources)

theorem sizeVal_pos {β : Type} (v : Val β) : 1 ≤ sizeVal v := by
  cases v <;> simp [sizeVal] <;> omega

theorem someCountGo_zero {V : Type} (p : V → Bool) :
    ∀ (l : List V) (n : Nat), someCountGo p 0 n l = (false, []) := by
  intro l
  induction l with
  | nil => intro n; rfl
  | cons x r ih =>
    intro n
    simp only [someCountGo, Nat.add_one_ne_zero, if_false]
    by_cases h : p x <;> simp [h, ih]

/-- C10: `someCount(predicate, 0)` scans the whole sequence (the match
counter is pre-incremented, so it is never 0 when compared to the requested
count) and returns false, never true. -/
theorem someCount_zero_false {V : Type} (p : V → Bool) (l : List V) :
    someCount p 0 l = (false, []) :=
  someCountGo_zero p l 0

/-- C6: `reduce` with no initial value (JS passes `undefined` for an omitted
argument) over an already-exhausted sequence raises the reduce-without-seed
TypeError, and with a (defined) initial value over an empty sequence returns
that initial value unchanged. -/
theorem reduce_empty_behavior :
    (∀ f : JSV → JSV → JSV, reduce f JSV.undef [] = .error errReduce) ∧
    (∀ (f : JSV → JSV → JSV) (init : JSV), init ≠ JSV.undef →
       reduce f init [] = .ok init) := by
  constructor
  · intro f; rfl
  · intro f init h; simp [reduce, h]

theorem reduce_empty_behavior_witness :
    reduce (fun a _ => a) (JSV.num 5) [] = .ok (JSV.num 5) :=
  reduce_empty_behavior.2 (fun a _ => a) (JSV.num 5) (by decide)

/-- C9: `reduce` with an explicit initial value of `undefined` behaves
exactly as with the argument omitted: the accumulator check is
`result === undefined`, so the seed comes from the first produced value,
and an already-exhausted sequence raises the reduce-without-seed TypeError
instead of returning `undefined`. -/
theorem reduce_undefined_initial_as_omitted :
    (∀ (f : JSV → JSV → JSV) (l : List JSV),
       reduce f JSV.undef l = reduceNoSeed f l) ∧
    (∀ f : JSV → JSV → JSV, reduce f JSV.undef [] = .error errReduce) ∧
    (∀ (f : JSV → JSV → JSV) (x : JSV) (rest : List JSV),
       reduce f JSV.undef (x :: rest) = .ok (rest.foldl f x)) := by
  refine ⟨?_, ?_, ?_⟩
  · intro f l; cases l <;> rfl
  · intro f; rfl
  · intro f x rest; rfl

/-- C2 counterexample: `includes(NaN)` over the sequence `[undefined]`
returns true, although `undefined` is neither strictly equal to the element
nor the NaN sentinel — the code's coercing `isNaN` classifies `undefined`
as not-a-number. -/
theorem includes_undef_nan_counterexample :
    includes JSV.nan [JSV.undef] = true ∧
    jsEq JSV.undef JSV.nan = false ∧
    JSV.undef ≠ JSV.nan :=
  ⟨by decide, by decide, by decide⟩

/-- C2 (amended): `includes(element)` returns true iff some produced value
is strictly equal to the element, or both that value and the element are
classified as not-a-number by the coercing `isNaN` — a class containing the
NaN sentinel and also `undefined`; otherwise it scans to exhaustion and
returns false. -/
theorem includes_nan_coercive_iff (element : JSV) (l : List JSV) :
    includes element l = true ↔
      ∃ v ∈ l, jsEq v element = true ∨
        (jsIsNaN v = true ∧ jsIsNaN element = true) := by
  induction l with
  | nil => simp [includes]
  | cons v rest ih =>
    by_cases h : (jsEq v element || (jsIsNaN v && jsIsNaN element)) = true
    · have htrue : includes element (v :: rest) = true := by
        simp [includes, h]
      have hmem : ∃ w ∈ v :: rest, jsEq w element = true ∨
          (jsIsNaN w = true ∧ jsIsNaN element = true) := by
        refine ⟨v, List.mem_cons_self v rest, ?_⟩
        simpa [Bool.or_eq_true, Bool.and_eq_true] using h
      exact iff_of_true htrue hmem
    · simp only [includes, h, if_false]
      simp only [Bool.or_eq_true, Bool.and_eq_true] at h
      push_neg at h
      constructor
      · intro hrest
        obtain ⟨w, hw, hprop⟩ := ih.mp hrest
        exact ⟨w, List.mem_cons_of_mem v hw, hprop⟩
      · rintro ⟨w, hw, hprop⟩
        rcases List.mem_cons.mp hw with rfl | hw'
        · rcases hprop with h1 | ⟨h2, h3⟩
          · exact absurd h1 h.1
          · exact absurd h3 (h.2 h2)
        · exact ih.mpr ⟨w, hw', hprop⟩

theorem flatMapDepth_succ : ∀ k, flatMapDepth k = k + 1 := by
  intro k
  induction k with
  | zero => simp [flatMapDepth, flatMapEmptyRun, flatMapNextD]
  | succ n ih =>
    have hrun : flatMapEmptyRun (n + 1) = Val.arr [] :: flatMapEmptyRun n := by
      simp [flatMapEmptyRun, List.replicate_succ]
    simp only [flatMapDepth, hrun, flatMapNextD]
    simp only [flatMapDepth] at ih
    omega

/-- C5 counterexample: the claim — one downstream pull consumes call-stack
depth bounded by a constant regardless of the number of consecutive empty
mapped sub-sequences — is false: the nested `next()` depth grows without
bound. -/
theorem flatMap_stack_not_constant : ¬ flatMapConstantStack := by
  rintro ⟨c, h⟩
  have hc := h c
  rw [flatMapDepth_succ] at hc
  omega

/-- C5 (amended): `FlatMapIterator.next` retries an empty mapped
sub-sequence with `return this.next()` — a recursive self-call, not a loop —
so one downstream pull over `k` consecutive empty sub-sequences performs
`k + 1` nested `next()` invocations: the consumed stack depth is linear in
the run of empty sub-sequences, not O(1). -/
theorem flatMap_retry_depth_linear (k : Nat) : flatMapDepth k = k + 1 :=
  flatMapDepth_succ k

theorem iterState_of_fixed {σ V : Type} (step : Step σ V) (t : σ)
    (h : step t = (none, t)) : ∀ n, iterState step t n = t := by
  intro n
  induction n with
  | zero => rfl
  | succ n ih => simpa [iterState, h] using ih

theorem permanent_of_sticky {σ V : Type} (step : Step σ V)
    (h : ∀ s, (step s).1 = none → step (step s).2 = (none, (step s).2)) :
    Permanent step := by
  intro s hs n
  rw [iterState_of_fixed step (step s).2 (h s hs) n, h s hs]

theorem takeWhileNext_sticky {σ V : Type} (p : V → Bool) (step : Step σ V) :
    ∀ st, (takeWhileNext p step st).1 = none →
      takeWhileNext p step (takeWhileNext p step st).2 =
        (none, (takeWhileNext p step st).2) := by
  rintro ⟨b, s⟩ hnone
  cases b
  · rcases hstep : step s with ⟨o, s'⟩
    cases o with
    | none =>
      have h1 : takeWhileNext p step (false, s) = (none, (true, s')) := by
        simp [takeWhileNext, hstep]
      rw [h1]
      rfl
    | some v =>
      by_cases hp : p v
      · have h1 : takeWhileNext p step (false, s) = (some v, (false, s')) := by
          simp [takeWhileNext, hstep, hp]
        rw [h1] at hnone
        exact absurd hnone (by simp)
      · have h1 : takeWhileNext p step (false, s) = (none, (true, s')) := by
          simp [takeWhileNext, hstep, hp]
        rw [h1]
        rfl
  · rfl

theorem mapNext_fst {σ V W : Type} (f : V → W) (step : Step σ V) (s : σ) :
    (mapNext f step s).1 = Option.map f (step s).1 := by
  simp only [mapNext]
  rcases step s with ⟨o, s'⟩
  cases o <;> rfl

theorem mapNext_snd {σ V W : Type} (f : V → W) (step : Step σ V) (s : σ) :
    (mapNext f step s).2 = (step s).2 := by
  simp only [mapNext]
  rcases step s with ⟨o, s'⟩
  cases o <;> rfl

theorem iterState_mapNext {σ V W : Type} (f : V → W) (step : Step σ V)
    (s : σ) (n : Nat) : iterState (mapNext f step) s n = iterState step s n := by
  induction n generalizing s with
  | zero => rfl
  | succ n ih => simp [iterState, mapNext_snd, ih]

/-- C1 counterexample: over an upstream that violates permanence,
`MapIterator` reports exhaustion on the first call and then yields a value
on the second — the claim that every adaptor keeps reporting exhaustion even
when the upstream resumes is false for `map`. -/
theorem map_resumes_after_exhaustion :
    (mapNext (fun n => n * 2) badStep 0).1 = none ∧
    (mapNext (fun n => n * 2) badStep
      ((mapNext (fun n => n * 2) badStep 0).2)).1 = some 14 ∧
    ¬ Permanent (mapNext (fun n => n * 2) badStep) := by
  refine ⟨by decide, by decide, ?_⟩
  intro h
  have h0 := h 0 (by decide) 0
  simp [iterState, mapNext, badStep] at h0

/-- C1 (amended): `takeWhile` enforces exhaustion permanence itself — once
its `next()` has reported exhaustion, every subsequent call reports
exhaustion even over an upstream cursor that violates permanence (the
sticky `done` flag is consulted before the upstream is touched); `map` does
not enforce it: it preserves exhaustion permanence when its upstream is
itself permanent, and (per the counterexample) yields values again when a
non-permanent upstream resumes. -/
theorem exhaustion_permanence_amended :
    (∀ (σ V : Type) (p : V → Bool) (step : Step σ V),
       Permanent (takeWhileNext p step)) ∧
    (∀ (σ V W : Type) (f : V → W) (step : Step σ V),
       Permanent step → Permanent (mapNext f step)) := by
  constructor
  · intro σ V p step
    exact permanent_of_sticky _ (takeWhileNext_sticky p step)
  · intro σ V W f step hperm s hs n
    have hs' : (step s).1 = none := by
      have := mapNext_fst f step s
      rw [hs] at this
      cases hstep : (step s).1 with
      | none => rfl
      | some v => rw [hstep] at this; simp at this
    rw [mapNext_snd, iterState_mapNext, mapNext_fst, hperm s hs' n]
    rfl

theorem exhaustion_permanence_witness :
    Permanent (mapNext (fun n : Nat => n + 1) (fun s : Unit => (none, s))) :=
  exhaustion_permanence_amended.2 Unit Nat Nat (fun n => n + 1)
    (fun s => (none, s)) (fun _ _ _ => rfl)

theorem mapToIterators_notIterable {V : Type} :
    ∀ (pre post : List (Source V)),
      mapToIterators (pre ++ Source.notIterable :: post) = .error errNotIterable := by
  intro pre post
  induction pre with
  | nil => rfl
  | cons s pre' ih =>
    cases s with
    | ofList l => simp [mapToIterators, toIterator, ih]
    | notIterable => rfl

theorem collectN_congr_step {σ V : Type} (step : Step σ V) (s t : σ)
    (h : step s = step t) (fuel : Nat) :
    collectN step (fuel + 1) s = collectN step (fuel + 1) t := by
  simp [collectN, h]

theorem join_run_nil {V : Type} :
    ∀ (b : List V) (extra : Nat),
      collectN joinNext (b.length + 1 + extra) (b, ([] : List (List V))) = b := by
  intro b
  induction b with
  | nil =>
    intro extra
    have h : ([] : List V).length + 1 + extra = extra + 1 := by
      simp only [List.length_nil]
      omega
    rw [h]
    simp [collectN, joinNext]
  | cons x bs ih =>
    intro extra
    have h : (x :: bs).length + 1 + extra = (bs.length + 1 + extra) + 1 := by
      simp
      omega
    rw [h]
    simp only [collectN, joinNext]
    rw [ih extra]

theorem join_run {V : Type} :
    ∀ (q : List (List V)) (b : List V) (extra : Nat),
      collectN joinNext (joinBound b q + extra) (b, q) = b ++ q.flatten := by
  intro q
  induction q with
  | nil =>
    intro b extra
    have h : joinBound b ([] : List (List V)) + extra = b.length + 1 + extra := by
      simp [joinBound]
    rw [h, join_run_nil b extra]
    simp
  | cons c q' ihq =>
    intro b extra
    induction b with
    | nil =>
      have hstep : joinNext (([] : List V), c :: q') = joinNext (c, q') := by
        rw [joinNext]
      have hfuel : joinBound ([] : List V) (c :: q') + extra =
          (joinBound c q' + (extra + 1) - 1) + 1 := by
        simp [joinBound]
        omega
      rw [hfuel, collectN_congr_step joinNext _ _ hstep]
      have hfuel2 : (joinBound c q' + (extra + 1) - 1) + 1 =
          joinBound c q' + (extra + 1) := by
        simp [joinBound]
        omega
      rw [hfuel2, ihq c (extra + 1)]
      simp
    | cons x bs ihb =>
      have hfuel : joinBound (x :: bs) (c :: q') + extra =
          (joinBound bs (c :: q') + extra) + 1 := by
        simp [joinBound]
        omega
      rw [hfuel]
      simp only [collectN, joinNext]
      rw [ihb]
      simp

/-- C3 counterexample: constructing `join` with a non-iterable queued source
throws the not-iterable TypeError at construction time, before the current
cursor has produced (or exhausted) anything — under the claimed
convert-on-exhaustion-only behaviour (`joinInitLazySpec`) construction would
succeed. -/
theorem join_lazy_conversion_counterexample :
    joinInit ([1, 2] : List Nat) [Source.notIterable] = .error errNotIterable ∧
    joinInitLazySpec ([1, 2] : List Nat) [Source.notIterable] =
      .ok ([1, 2], [Source.notIterable]) :=
  ⟨rfl, rfl⟩

/-- C3 (amended): `JoinIterator`'s constructor converts every queued
sequence to a cursor eagerly at construction (a non-iterable source anywhere
in the queue fails construction immediately); the sequences are then
consumed strictly in declared order, each one fully drained before the next
begins, so a full run yields the concatenation. -/
theorem join_eager_conversion_and_order :
    (∀ (V : Type) (b : List V) (pre post : List (Source V)),
       joinInit b (pre ++ Source.notIterable :: post) = .error errNotIterable) ∧
    (∀ (V : Type) (b : List V) (q : List (List V)) (extra : Nat),
       collectN joinNext (joinBound b q + extra) (b, q) = b ++ q.flatten) := by
  constructor
  · intro V b pre post
    simp [joinInit, mapToIterators_notIterable pre post]
  · intro V b q extra
    exact join_run q b extra

theorem take_run_aux {V : Type} (n : Nat) :
    ∀ (l : List V) (it extra : Nat), it ≤ n →
      collectN (takeNext n stepList) (n - it + 1 + extra) (it, l) =
        l.take (n - it) := by
  intro l
  induction l with
  | nil =>
    intro it extra _
    have h : n - it + 1 + extra = (n - it + extra) + 1 := by omega
    have hstep : takeNext n stepList (it, ([] : List V)) = (none, (it + 1, [])) := by
      by_cases hc : it + 1 ≤ n <;> simp [takeNext, stepList, hc]
    rw [h]
    simp [collectN, hstep]
  | cons x xs ih =>
    intro it extra hit
    by_cases h : it + 1 ≤ n
    · have hfuel : n - it + 1 + extra = (n - (it + 1) + 1 + extra) + 1 := by
        omega
      rw [hfuel]
      simp only [collectN, takeNext, stepList, if_pos h]
      rw [ih (it + 1) extra h]
      have htake : n - it = (n - (it + 1)) + 1 := by omega
      rw [htake]
      simp
    · have hit0 : n - it = 0 := by omega
      have h2 : n - it + 1 + extra = (n - it + extra) + 1 := by omega
      rw [h2]
      simp only [collectN, takeNext]
      rw [if_neg h]
      simp [hit0]

/-- C7: `take(n)` over a sequence of length L yields exactly the first
min(n, L) values of the unmodified sequence, in order (a full run equals
`List.take n`, whose length is min(n, L)); and with `take(0)` every call
reports done without touching the upstream — the result and the upstream
state are independent of the upstream step. -/
theorem take_min_semantics :
    (∀ (V : Type) (n : Nat) (l : List V) (extra : Nat),
       collectN (takeNext n stepList) (n + 1 + extra) (0, l) = l.take n) ∧
    (∀ (V : Type) (n : Nat) (l : List V), (l.take n).length = min n l.length) ∧
    (∀ (σ V : Type) (step : Step σ V) (it : Nat) (s : σ),
       takeNext 0 step (it, s) = (none, (it + 1, s))) := by
  refine ⟨?_, ?_, ?_⟩
  · intro V n l extra
    have := take_run_aux n l 0 extra (Nat.zero_le n)
    simpa using this
  · intro V n l
    simp [List.length_take]
  · intro σ V step it s
    simp [takeNext]

theorem flattenList_zero {β : Type} (l : List (Val β)) :
    flattenList 0 l = .ok l := by
  simp [flattenList]

theorem flattenList_nil {β : Type} (d : Nat) :
    flattenList d ([] : List (Val β)) = .ok [] := by
  cases d <;> simp [flattenList]

theorem flattenList_nullish_cons {β : Type} (d : Nat) (rest : List (Val β)) :
    flattenList (d + 1) (Val.nullish :: rest) = .error errNullishProbe := by
  simp [flattenList]

theorem flattenList_leaf_cons {β : Type} (x : β) (rest : List (Val β)) :
    ∀ b : Nat, flattenList b (Val.leaf x :: rest) =
      Except.map (fun t => Val.leaf x :: t) (flattenList b rest) := by
  intro b
  cases b with
  | zero => simp [flattenList, Except.map]
  | succ d =>
    cases hr : flattenList (d + 1) rest <;> simp [flattenList, hr, Except.map]

theorem flattenList_arr_cons {β : Type} (b : Nat) (m rest : List (Val β)) :
    flattenList (b + 1) (Val.arr m :: rest) =
      match flattenList b m with
      | .error e => .error e
      | .ok a =>
        match flattenList (b + 1) rest with
        | .error e => .error e
        | .ok t => .ok (a ++ t) := by
  simp [flattenList]

theorem flattenList_one {β : Type} : ∀ l : List (Val β), flattenList 1 l = oneLevel l := by
  intro l
  induction l with
  | nil => simp [flattenList_nil, oneLevel]
  | cons v rest ih =>
    cases v with
    | nullish => simp [flattenList, oneLevel]
    | leaf x =>
      rw [flattenList_leaf_cons, ih]
      cases ho : oneLevel rest <;> simp [oneLevel, ho, Except.map]
    | arr m =>
      rw [flattenList_arr_cons, flattenList_zero, ih]
      cases ho : oneLevel rest <;> simp [oneLevel, ho]

theorem collectE_congr_step {σ V : Type} (step : σ → Except String (Option V × σ))
    (s t : σ) (h : step s = step t) (fuel : Nat) :
    collectE step (fuel + 1) s = collectE step (fuel + 1) t := by
  simp [collectE, h]

theorem flat_run_aux {β : Type} (d : Nat) :
    ∀ (N : Nat) (st : List (List (Val β))), flatMeasure st ≤ N → st.length ≤ d + 1 →
      ∀ fuel, flatMeasure st < fuel →
        collectE (flatNext d) fuel st = stackFlatten d st := by
  intro N
  induction N with
  | zero =>
    intro st hm hl fuel hf
    cases st with
    | nil =>
      cases fuel with
      | zero => simp [flatMeasure, stackSize] at hf
      | succ f => simp [collectE, flatNext, stackFlatten]
    | cons top rest =>
      exfalso
      simp [flatMeasure] at hm
  | succ N ih =>
    intro st hm hl fuel hf
    cases st with
    | nil =>
      cases fuel with
      | zero => simp [flatMeasure, stackSize] at hf
      | succ f => simp [collectE, flatNext, stackFlatten]
    | cons top rest =>
      cases fuel with
      | zero => exact absurd hf (by omega)
      | succ f =>
        cases top with
        | nil =>
          have hstep : flatNext d ([] :: rest) = flatNext d rest := by
            simp only [flatNext]
          rw [collectE_congr_step _ _ _ hstep f]
          have hm' : flatMeasure rest ≤ N := by
            simp [flatMeasure, stackSize, sizeLst] at hm ⊢
            omega
          have hl' : rest.length ≤ d + 1 := by
            simp at hl
            omega
          have hf' : flatMeasure rest < f + 1 := by
            simp [flatMeasure, stackSize, sizeLst] at hf ⊢
            omega
          rw [ih rest hm' hl' (f + 1) hf']
          cases hsf : stackFlatten d rest <;>
            simp [stackFlatten, flattenList_nil, hsf]
        | cons v vs =>
          by_cases hd : rest.length = d
          · have hstep : flatNext d ((v :: vs) :: rest) = .ok (some v, vs :: rest) := by
              rw [flatNext.eq_def]
              simp [hd]
            have hv := sizeVal_pos v
            have hm' : flatMeasure (vs :: rest) ≤ N := by
              simp [flatMeasure, stackSize, sizeLst] at hm ⊢
              omega
            have hl' : (vs :: rest).length ≤ d + 1 := by
              simpa using hl
            have hf' : flatMeasure (vs :: rest) < f := by
              simp [flatMeasure, stackSize, sizeLst] at hf ⊢
              omega
            simp only [collectE, hstep]
            rw [ih (vs :: rest) hm' hl' f hf']
            cases hsf : stackFlatten d rest <;>
              simp [stackFlatten, hd, flattenList_zero, hsf]
          · cases v with
            | nullish =>
              have hrest : rest.length < d := by
                simp at hl
                omega
              have hb : d - rest.length = (d - (rest.length + 1)) + 1 := by omega
              have hstep : flatNext d ((Val.nullish :: vs) :: rest) =
                  .error errNullishProbe := by
                rw [flatNext.eq_def]
                simp [hd]
              simp only [collectE, hstep]
              simp [stackFlatten, hb, flattenList_nullish_cons]
            | leaf x =>
              have hstep : flatNext d ((Val.leaf x :: vs) :: rest) =
                  .ok (some (Val.leaf x), vs :: rest) := by
                rw [flatNext.eq_def]
                simp [hd]
              have hm' : flatMeasure (vs :: rest) ≤ N := by
                simp [flatMeasure, stackSize, sizeLst, sizeVal] at hm ⊢
                omega
              have hl' : (vs :: rest).length ≤ d + 1 := by
                simpa using hl
              have hf' : flatMeasure (vs :: rest) < f := by
                simp [flatMeasure, stackSize, sizeLst, sizeVal] at hf ⊢
                omega
              simp only [collectE, hstep]
              rw [ih (vs :: rest) hm' hl' f hf']
              cases hfv : flattenList (d - rest.length) vs with
              | error e =>
                simp [stackFlatten, hfv, flattenList_leaf_cons, Except.map]
              | ok a =>
                cases hsf : stackFlatten d rest <;>
                  simp [stackFlatten, hfv, hsf, flattenList_leaf_cons, Except.map]
            | arr m =>
              have hrest : rest.length < d := by
                simp at hl
                omega
              have hstep : flatNext d ((Val.arr m :: vs) :: rest) =
                  flatNext d (m :: vs :: rest) := by
                rw [flatNext.eq_def]
                simp [hd]
              rw [collectE_congr_step _ _ _ hstep f]
              have hm' : flatMeasure (m :: vs :: rest) ≤ N := by
                simp [flatMeasure, stackSize, sizeLst, sizeVal] at hm ⊢
                omega
              have hl' : (m :: vs :: rest).length ≤ d + 1 := by
                simp at hl ⊢
                omega
              have hf' : flatMeasure (m :: vs :: rest) < f + 1 := by
                simp [flatMeasure, stackSize, sizeLst, sizeVal] at hf ⊢
                omega
              rw [ih (m :: vs :: rest) hm' hl' (f + 1) hf']
              have hb : d - rest.length = (d - (rest.length + 1)) + 1 := by omega
              simp only [stackFlatten, List.length_cons, hb, flattenList_arr_cons]
              cases hfm : flattenList (d - (rest.length + 1)) m with
              | error e => simp [hfm]
              | ok a =>
                cases hfv : flattenList (d - (rest.length + 1) + 1) vs with
                | error e => simp [hfm, hfv]
                | ok c =>
                  cases hsf : stackFlatten d rest with
                  | error e => simp [hfm, hfv, hsf]
                  | ok t => simp [hfm, hfv, hsf, List.append_assoc]

theorem flat_run_base {β : Type} (d : Nat) (l : List (Val β)) (extra : Nat) :
    collectE (flatNext d) (flatMeasure [l] + 1 + extra) [l] = flattenList d l := by
  have h := flat_run_aux d (flatMeasure [l]) [l] (Nat.le_refl _)
    (by simp) (flatMeasure [l] + 1 + extra) (by omega)
  rw [h]
  cases hfl : flattenList d l <;>
    simp [stackFlatten, List.length_nil, Nat.sub_zero, hfl]

/-- C4 counterexample: a nullish (undefined/null) value — non-enumerable —
is not passed through by `flat(1)`: pulled below the depth limit, the guard
probes `value[Symbol.iterator]` and throws a TypeError, so the run over
`[1, undefined]` errors instead of yielding the values; the same sequence
under `flat(0)` passes both values through (the depth-limit disjunct
short-circuits the probe), contradicting pass-through "regardless of the
configured depth". -/
theorem flat_nullish_counterexample :
    collectE (flatNext 1) 5 [[Val.leaf (1 : Nat), Val.nullish]] =
      .error errNullishProbe ∧
    collectE (flatNext 0) 5 [[Val.leaf (1 : Nat), Val.nullish]] =
      .ok [Val.leaf 1, Val.nullish] := by
  constructor <;> simp [collectE, flatNext]

/-- C4 (amended): `flat(0)` yields the unflattened sequence unchanged
(identity — every value, nullish included, passes through); `flat(1)`
flattens exactly one level, leaving depth-2+ nesting intact; in general
`flat(d)` realizes depth-`d` flattening, under which every non-nullish
non-enumerable leaf, at any depth, is passed through unchanged regardless
of the configured depth — but a nullish value pulled below the depth limit
raises a TypeError from the `Symbol.iterator` probe instead of passing
through (at the depth limit it passes through, the depth check
short-circuiting the probe). -/
theorem flat_depth_semantics :
    (∀ (β : Type) (l : List (Val β)) (extra : Nat),
       collectE (flatNext 0) (flatMeasure [l] + 1 + extra) [l] = .ok l) ∧
    (∀ (β : Type) (l : List (Val β)) (extra : Nat),
       collectE (flatNext 1) (flatMeasure [l] + 1 + extra) [l] = oneLevel l) ∧
    (∀ (β : Type) (d : Nat) (l : List (Val β)) (extra : Nat),
       collectE (flatNext d) (flatMeasure [l] + 1 + extra) [l] = flattenList d l) ∧
    (∀ (β : Type) (d : Nat) (x : β) (rest : List (Val β)),
       flattenList d (Val.leaf x :: rest) =
         Except.map (fun t => Val.leaf x :: t) (flattenList d rest)) ∧
    (∀ (β : Type) (d : Nat) (rest : List (Val β)),
       flattenList (d + 1) (Val.nullish :: rest) =
         (.error errNullishProbe : Except String (List (Val β)))) := by
  refine ⟨?_, ?_, ?_, ?_, ?_⟩
  · intro β l extra
    rw [flat_run_base, flattenList_zero]
  · intro β l extra
    rw [flat_run_base, flattenList_one]
  · intro β d l extra
    exact flat_run_base d l extra
  · intro β d x rest
    exact flattenList_leaf_cons x rest d
  · intro β d rest
    exact flattenList_nullish_cons d rest

theorem zipPull_all {V : Type} :
    ∀ secs : List (List V), (∀ l ∈ secs, l ≠ []) →
      zipPull secs = (some (secs.filterMap List.head?), secs.map List.tail) := by
  intro secs
  induction secs with
  | nil => intro _; rfl
  | cons l rest ih =>
    intro h
    have hl : l ≠ [] := h l (List.mem_cons_self l rest)
    rcases l with _ | ⟨v, vs⟩
    · exact absurd rfl hl
    · have hrest : ∀ l ∈ rest, l ≠ [] := fun l hm => h l (List.mem_cons_of_mem _ hm)
      simp [zipPull, ih hrest, List.filterMap_cons]

theorem zipPull_has_empty {V : Type} :
    ∀ secs : List (List V), [] ∈ secs → (zipPull secs).1 = none := by
  intro secs
  induction secs with
  | nil => intro h; simp at h
  | cons l rest ih =>
    intro h
    rcases l with _ | ⟨v, vs⟩
    · simp [zipPull]
    · have hmem : [] ∈ rest := by
        rcases List.mem_cons.mp h with heq | hmem
        · exact absurd heq.symm (by simp)
        · exact hmem
      rcases hzp : zipPull rest with ⟨o, rest'⟩
      have : o = none := by
        have := ih hmem
        rw [hzp] at this
        exact this
      subst this
      simp [zipPull, hzp]

theorem zipPull_skip_after_empty {V : Type} :
    ∀ (pre post : List (List V)), (∀ l ∈ pre, l ≠ []) →
      zipPull (pre ++ [] :: post) = (none, pre.map List.tail ++ [] :: post) := by
  intro pre post
  induction pre with
  | nil => intro _; rfl
  | cons l pre' ih =>
    intro h
    have hl : l ≠ [] := h l (List.mem_cons_self _ _)
    rcases l with _ | ⟨v, vs⟩
    · exact absurd rfl hl
    · have hpre' : ∀ l ∈ pre', l ≠ [] := fun l hm => h l (List.mem_cons_of_mem _ hm)
      simp [zipPull, ih hpre']

theorem foldr_min_zero : ∀ L : List Nat, L.foldr Nat.min 0 = 0 := by
  intro L
  induction L with
  | nil => rfl
  | cons a L ih => simp [ih, Nat.min_zero]

theorem minLen_cons {V : Type} (b : List V) (l : List V) (rest : List (List V)) :
    minLen b (l :: rest) = Nat.min l.length (minLen b rest) := rfl

theorem minLen_nil_base {V : Type} (secs : List (List V)) :
    minLen ([] : List V) secs = 0 := by
  simp [minLen, foldr_min_zero]

theorem minLen_zero_of_empty_mem {V : Type} (b : List V) :
    ∀ secs : List (List V), [] ∈ secs → minLen b secs = 0 := by
  intro secs
  induction secs with
  | nil => intro h; simp at h
  | cons l rest ih =>
    intro h
    rcases List.mem_cons.mp h with heq | hmem
    · rw [← heq, minLen_cons]
      simp
    · rw [minLen_cons, ih hmem]
      simp

theorem minLen_succ {V : Type} (x : V) (bs : List V) :
    ∀ secs : List (List V), (∀ l ∈ secs, l ≠ []) →
      minLen (x :: bs) secs = minLen bs (secs.map List.tail) + 1 := by
  intro secs
  induction secs with
  | nil => intro _; simp [minLen]
  | cons l rest ih =>
    intro h
    have hl := h l (List.mem_cons_self _ _)
    rcases l with _ | ⟨v, vs⟩
    · exact absurd rfl hl
    · have hrest : ∀ l ∈ rest, l ≠ [] := fun l hm => h l (List.mem_cons_of_mem _ hm)
      rw [minLen_cons, ih hrest, List.map_cons, minLen_cons]
      simp [Nat.succ_min_succ]

theorem filterMap_getElem_succ {V : Type} (k : Nat) :
    ∀ secs : List (List V), (∀ l ∈ secs, l ≠ []) →
      secs.filterMap (fun l => l[k + 1]?) =
        (secs.map List.tail).filterMap (fun l => l[k]?) := by
  intro secs
  induction secs with
  | nil => intro _; rfl
  | cons l rest ih =>
    intro h
    have hl := h l (List.mem_cons_self _ _)
    rcases l with _ | ⟨v, vs⟩
    · exact absurd rfl hl
    · have hrest : ∀ l ∈ rest, l ≠ [] := fun l hm => h l (List.mem_cons_of_mem _ hm)
      simp [List.filterMap_cons, List.getElem?_cons_succ, ih hrest]

theorem getElem_zero_head? {V : Type} (l : List V) : l[0]? = l.head? := by
  cases l <;> simp

theorem zipSpec_cons {V : Type} (x : V) (bs : List V) (secs : List (List V))
    (h : ∀ l ∈ secs, l ≠ []) :
    zipSpec (x :: bs) secs =
      (x :: secs.filterMap List.head?) :: zipSpec bs (secs.map List.tail) := by
  unfold zipSpec
  rw [minLen_succ x bs secs h, List.range_succ_eq_map, List.map_cons, List.map_map]
  congr 1
  · simp only [List.filterMap_cons, List.getElem?_cons_zero]
    rw [List.filterMap_congr (fun l _ => getElem_zero_head? l)]
  · apply List.map_congr_left
    intro k hk
    simp only [Function.comp_apply, List.filterMap_cons, List.getElem?_cons_succ]
    rw [filterMap_getElem_succ k secs h]

theorem zip_run {V : Type} :
    ∀ (b : List V) (secs : List (List V)) (extra : Nat),
      collectN zipNext (b.length + 1 + extra) (b, secs) = zipSpec b secs := by
  intro b
  induction b with
  | nil =>
    intro secs extra
    have h : ([] : List V).length + 1 + extra = extra + 1 := by
      simp only [List.length_nil]
      omega
    rw [h]
    have hspec : zipSpec ([] : List V) secs = [] := by
      simp [zipSpec, minLen_nil_base]
    rw [hspec]
    simp [collectN, zipNext]
  | cons x bs ih =>
    intro secs extra
    have hfuel : (x :: bs).length + 1 + extra = (bs.length + 1 + extra) + 1 := by
      simp only [List.length_cons]
      omega
    rw [hfuel]
    by_cases h : ∀ l ∈ secs, l ≠ []
    · have hstep : zipNext (x :: bs, secs) =
          (some (x :: secs.filterMap List.head?), (bs, secs.map List.tail)) := by
        simp [zipNext, zipPull_all secs h]
      simp only [collectN, hstep]
      rw [ih (secs.map List.tail) extra, zipSpec_cons x bs secs h]
    · have hmem : [] ∈ secs := by
        push_neg at h
        obtain ⟨l, hl, hleq⟩ := h
        rw [← hleq]
        exact hl
      rcases hzp : zipPull secs with ⟨o, secs'⟩
      have ho : o = none := by
        have h1 := zipPull_has_empty secs hmem
        rw [hzp] at h1
        exact h1
      subst ho
      have hstep : zipNext (x :: bs, secs) = (none, (bs, secs')) := by
        simp [zipNext, hzp]
      simp only [collectN, hstep]
      simp [zipSpec, minLen_zero_of_empty_mem (x :: bs) secs hmem]

/-- C8: a full run of `zip` equals the index-based specification — one tuple
per index below the minimum input length, each tuple holding the per-cursor
values in declared order with the primary first — so the output length is
the minimum of all input lengths; on a call, the secondary cursors after the
first exhausted one are left untouched, and when the primary is exhausted no
secondary is pulled at all. -/
theorem zip_lockstep_semantics :
    (∀ (V : Type) (b : List V) (secs : List (List V)) (extra : Nat),
       collectN zipNext (b.length + 1 + extra) (b, secs) = zipSpec b secs) ∧
    (∀ (V : Type) (b : List V) (secs : List (List V)) (extra : Nat),
       (collectN zipNext (b.length + 1 + extra) (b, secs)).length = minLen b secs) ∧
    (∀ (V : Type) (pre post : List (List V)), (∀ l ∈ pre, l ≠ []) →
       zipPull (pre ++ [] :: post) = (none, pre.map List.tail ++ [] :: post)) ∧
    (∀ (V : Type) (secs : List (List V)), zipNext ([], secs) = (none, ([], secs))) := by
  refine ⟨?_, ?_, ?_, ?_⟩
  · intro V b secs extra
    exact zip_run b secs extra
  · intro V b secs extra
    rw [zip_run b secs extra]
    simp [zipSpec]
  · intro V pre post h
    exact zipPull_skip_after_empty pre post h
  · intro V secs
    rfl

theorem zip_lockstep_witness :
    zipPull ([[1], [2]] ++ [] :: [[3]] : List (List Nat)) =
      (none, [[1], [2]].map List.tail ++ [] :: [[3]]) :=
  zip_lockstep_semantics.2.2.1 Nat [[1], [2]] [[3]] (by decide)

end Metautil
